import Mathlib

/-!
Verification development for the `mpm` (My Project Manager) CLI tool.

The repository is a Go program; this file gives a shallow embedding of the
parts of the program the verified properties are about:

* the config store (`pkg/config/config.go`): JSON persistence of a list of
  projects, add/remove/find by name, path normalization;
* the filesystem scanner (`pkg/fs/scanner.go`): recursive directory scan
  with an exclusion policy;
* the health heuristics (`pkg/health`): package-manager detection by
  manifest presence;
* the interactive UI state machine (`pkg/ui`): sort toggling, scrolling in
  the action view, and the add-project form.

Go standard-library functions used by the program (`path/filepath.Clean`,
`Join`, `Base`, `Ext`, `IsAbs`, `strings.EqualFold`, `strings.TrimSpace`,
`strings.HasPrefix`/`HasSuffix`/`ToLower`) are modelled from their
documented semantics, on `List Char` (Unix path rules, which is what the
program's Linux/macOS targets use).  Strings are modelled by Lean `String`
(a list of unicode scalar values); the ASCII fragment, which is all the
program's tables use, behaves identically to Go's byte strings.
-/

namespace MPM

/-! ## Character-list helpers (models of Go `strings` functions) -/

/-- Model of `strings.HasPrefix` on character lists. -/
def startsWithL (l p : List Char) : Bool := l.take p.length == p

/-- Model of `strings.HasSuffix` on character lists. -/
def endsWithL (l sfx : List Char) : Bool := startsWithL l.reverse sfx.reverse

/-- Model of `strings.ToLower` on character lists (ASCII case mapping,
which agrees with Go on the ASCII names the program compares). -/
def lowerL (l : List Char) : List Char := l.map Char.toLower

/-- Model of `strings.ToLower` on strings. -/
def strLower (s : String) : String := ⟨lowerL s.data⟩

/-- Model of `strings.EqualFold` on character lists: case-insensitive
equality (simple case folding; agrees with Go on ASCII). -/
def equalFoldL : List Char → List Char → Bool
  | [], [] => true
  | a :: as, b :: bs => (Char.toLower a == Char.toLower b) && equalFoldL as bs
  | _, _ => false

/-- Model of `strings.EqualFold` on strings. -/
def equalFold (a b : String) : Bool := equalFoldL a.data b.data

/-- Model of `strings.TrimSpace`: drop whitespace from both ends. -/
def trimSpace (s : String) : String :=
  ⟨(((s.data.dropWhile Char.isWhitespace).reverse.dropWhile Char.isWhitespace).reverse)⟩

/-! ## Path components

`path/filepath` (Unix rules) is modelled by splitting a path into its
slash-separated non-empty components.  `partsAux` accumulates the current
component in reverse; hitting `'/'` or the end of input emits it. -/

/-- Auxiliary splitter: `cur` is the current component, reversed. -/
def partsAux (cur : List Char) : List Char → List (List Char)
  | [] => if cur = [] then [] else [cur.reverse]
  | c :: rest =>
    if c = '/' then
      (if cur = [] then partsAux [] rest else cur.reverse :: partsAux [] rest)
    else partsAux (c :: cur) rest

/-- The non-empty slash-separated components of a path. -/
def parts (l : List Char) : List (List Char) := partsAux [] l

/-- Joins components with `'/'` (no leading or trailing slash). -/
def joinParts : List (List Char) → List Char
  | [] => []
  | [c] => c
  | c :: cs => c ++ '/' :: joinParts cs

/-- The component-stack processing of `filepath.Clean`: `.` components are
dropped; `..` pops a preceding component, is dropped at the root of a
rooted path, and is kept at the front of a relative path.  `stk` is the
output stack (reversed). -/
def cleanAux (rooted : Bool) (stk : List (List Char)) : List (List Char) → List (List Char)
  | [] => stk.reverse
  | c :: rest =>
    if c = ['.'] then cleanAux rooted stk rest
    else if c = ['.', '.'] then
      match stk with
      | [] => if rooted then cleanAux rooted [] rest else cleanAux rooted [c] rest
      | top :: stk' =>
        if top = ['.', '.'] then cleanAux rooted (c :: top :: stk') rest
        else cleanAux rooted stk' rest
    else cleanAux rooted (c :: stk) rest

/-- Model of `filepath.Clean` on character lists. -/
def cleanL (l : List Char) : List Char :=
  let rooted : Bool := l.head? == some '/'
  let cs := cleanAux rooted [] (parts l)
  match cs with
  | [] => if rooted then ['/'] else ['.']
  | _ => if rooted then '/' :: joinParts cs else joinParts cs

/-- Model of `filepath.Clean`. -/
def goClean (path : String) : String := ⟨cleanL path.data⟩

/-- Model of `filepath.Join` for two elements: empty elements are ignored,
the rest are joined with a slash and the result is cleaned. -/
def goJoin (a b : String) : String :=
  if a.data = [] then (if b.data = [] then "" else goClean b)
  else if b.data = [] then goClean a
  else ⟨cleanL (a.data ++ '/' :: b.data)⟩

/-- Model of `filepath.IsAbs` (Unix): the path starts with a slash. -/
def goIsAbs (s : String) : Bool := startsWithL s.data ['/']

/-- Model of `filepath.Base`: the last element of the path after trailing
slashes are removed; `"."` for the empty path, `"/"` for all-slash paths. -/
def goBase (s : String) : String :=
  if s.data = [] then "."
  else
    match (parts s.data).getLast? with
    | some c => ⟨c⟩
    | none => "/"

/-- Model of `filepath.Ext`: the suffix of the final element starting at
its final dot (empty if there is no dot).  Scans from the end, stopping at
a path separator; `acc` collects the scanned characters in order. -/
def extRevAux (acc : List Char) : List Char → List Char
  | [] => []
  | c :: rest =>
    if c = '/' then []
    else if c = '.' then '.' :: acc
    else extRevAux (c :: acc) rest

/-- Model of `filepath.Ext`. -/
def goExt (s : String) : String := ⟨extRevAux [] s.data.reverse⟩

/-- Model of `filepath.Abs` (Unix): an absolute path is cleaned; a relative
path is joined onto the working directory `wd`. -/
def goAbs (wd path : String) : String :=
  if goIsAbs path then goClean path else goJoin wd path

/-! ## Config store (`pkg/config/config.go`)

`Project` and `Config` are the persisted data model.  The config file is
modelled at the level of the JSON document it contains (`Json`), which is
what `encoding/json` serialises to and parses from: `json.MarshalIndent`
followed by `json.Unmarshal` is the identity on the document tree, so the
textual layer is abstracted away.  A store whose `contents` is `none`
stands for a missing/unreadable file. -/

/-- `Project` from `config.go`: a managed project. -/
structure Project where
  name : String
  path : String
  category : String
deriving DecidableEq

/-- `Config` from `config.go`: the application configuration. -/
structure Config where
  Projects : List Project
deriving DecidableEq

/-- A JSON document tree (the image of `encoding/json`). -/
inductive Json where
  | null
  | bool (b : Bool)
  | num (n : Int)
  | str (s : String)
  | arr (elems : List Json)
  | obj (fields : List (String × Json))

/-- JSON encoding of a `Project`, per its struct tags
(`json:"name"`, `json:"path"`, `json:"category"`). -/
def encodeProject (p : Project) : Json :=
  .obj [("name", .str p.name), ("path", .str p.path), ("category", .str p.category)]

/-- JSON encoding of a `Config` (`json:"projects"`). -/
def encodeConfig (c : Config) : Json :=
  .obj [("projects", .arr (c.Projects.map encodeProject))]

/-- Decoding of the fields of a `Project` object, mirroring
`encoding/json`: keys are matched case-insensitively against the struct
tags, later duplicates overwrite, unknown keys are ignored, `null` leaves
the field untouched, and a type mismatch is an error (`none`; the caller
discards the whole result on error, as `LoadConfig` does). -/
def decodeProjectFields (acc : Project) : List (String × Json) → Option Project
  | [] => some acc
  | (k, v) :: rest =>
    if equalFold k "name" then
      match v with
      | .str s => decodeProjectFields { acc with name := s } rest
      | .null => decodeProjectFields acc rest
      | _ => none
    else if equalFold k "path" then
      match v with
      | .str s => decodeProjectFields { acc with path := s } rest
      | .null => decodeProjectFields acc rest
      | _ => none
    else if equalFold k "category" then
      match v with
      | .str s => decodeProjectFields { acc with category := s } rest
      | .null => decodeProjectFields acc rest
      | _ => none
    else decodeProjectFields acc rest

/-- Decoding of a `Project` value: must be an object (or `null`, which
leaves the zero value). -/
def decodeProject (j : Json) : Option Project :=
  match j with
  | .obj fields => decodeProjectFields ⟨"", "", ""⟩ fields
  | .null => some ⟨"", "", ""⟩
  | _ => none

/-- Decoding of the elements of the `"projects"` array, in order. -/
def decodeProjects : List Json → Option (List Project)
  | [] => some []
  | j :: rest =>
    match decodeProject j with
    | some p =>
      match decodeProjects rest with
      | some ps => some (p :: ps)
      | none => none
    | none => none

/-- Decoding of the fields of a `Config` object. -/
def decodeConfigFields (acc : Config) : List (String × Json) → Option Config
  | [] => some acc
  | (k, v) :: rest =>
    if equalFold k "projects" then
      match v with
      | .arr elems =>
        match decodeProjects elems with
        | some ps => decodeConfigFields ⟨ps⟩ rest
        | none => none
      | .null => decodeConfigFields acc rest
      | _ => none
    else decodeConfigFields acc rest

/-- Decoding of a `Config` value. -/
def decodeConfig (j : Json) : Option Config :=
  match j with
  | .obj fields => decodeConfigFields ⟨[]⟩ fields
  | .null => some ⟨[]⟩
  | _ => none

/-- The config file: `none` models a missing or unreadable file. -/
structure ConfigStore where
  contents : Option Json

/-- `LoadConfig` from `config.go`: loads the configuration from the file,
returning an empty config on read or parse failure (fails soft). -/
def LoadConfig (st : ConfigStore) : Config :=
  match st.contents with
  | none => ⟨[]⟩
  | some j =>
    match decodeConfig j with
    | none => ⟨[]⟩
    | some c => c

/-- `SaveConfig` from `config.go`: writes the JSON encoding of the config
to the file. -/
def SaveConfig (c : Config) : ConfigStore := ⟨some (encodeConfig c)⟩

/-- The projects currently stored in the config file. -/
def projectsOf (st : ConfigStore) : List Project := (LoadConfig st).Projects

/-- Process environment used by `AddProject`: the home directory
(`os.UserHomeDir`) and the working directory (`os.Getwd`, used by
`filepath.Abs`).  The error paths of both calls terminate the process and
are outside the model. -/
structure Env where
  home : String
  wd : String

/-- The path normalization performed by `AddProject`: a leading `~` is
expanded to the home directory, and the result is made absolute. -/
def normalizePath (env : Env) (path : String) : String :=
  let expanded :=
    if startsWithL path.data ['~'] then goJoin env.home ⟨path.data.tail⟩ else path
  goAbs env.wd expanded

/-- The list-level core of `AddProject`: the first project with the given
name is replaced in place; if none matches, the new project is appended. -/
def addProjectList (l : List Project) (name absPath category : String) : List Project :=
  match l with
  | [] => [⟨name, absPath, category⟩]
  | p :: rest =>
    if p.name = name then ⟨name, absPath, category⟩ :: rest
    else p :: addProjectList rest name absPath category

/-- `AddProject` from `config.go`: loads the config, normalizes the path,
replaces the first project with the same name or appends a new one, and
saves. -/
def AddProject (st : ConfigStore) (env : Env) (name path category : String) : ConfigStore :=
  let config := LoadConfig st
  let absPath := normalizePath env path
  SaveConfig ⟨addProjectList config.Projects name absPath category⟩

/-- The list-level core of `RemoveProject`: removes the first project with
the given name; `none` if no project matches (the `found` flag). -/
def removeProjectList : List Project → String → Option (List Project)
  | [], _ => none
  | p :: rest, name =>
    if p.name = name then some rest
    else (removeProjectList rest name).map (p :: ·)

/-- `RemoveProject` from `config.go`: removes the first project with the
given name and saves; if none matches the file is left untouched. -/
def RemoveProject (st : ConfigStore) (name : String) : ConfigStore :=
  match removeProjectList (LoadConfig st).Projects name with
  | some l => SaveConfig ⟨l⟩
  | none => st

/-- The list-level core of `GoToProject`: the path of the first project
with the given name, or `""` if none matches. -/
def findPathList : List Project → String → String
  | [], _ => ""
  | p :: rest, name => if p.name = name then p.path else findPathList rest name

/-- `GoToProject` from `config.go`: returns the path of a project for
navigation, or the empty string when the name is not found. -/
def GoToProject (st : ConfigStore) (name : String) : String :=
  findPathList (LoadConfig st).Projects name

/-! ## Filesystem scanner (`pkg/fs/scanner.go`)

The filesystem under a path is modelled by a tree: `os.ReadDir` on a
directory returns its entries (name and subtree) in list order, and errors
(returning `nil`) on a non-directory.  `entry.Info().Size()` is the `size`
stored at each node. -/

/-- A filesystem subtree: a regular file or a directory with named
children. -/
inductive FSNode where
  | file (size : Int)
  | dir (size : Int) (entries : List (String × FSNode))

/-- `FileEntry` from `scanner.go`: a file in the file chart.  The
`lipgloss` color fields elsewhere in the file are presentation-only and
not modelled. -/
structure FileEntry where
  Path : String
  IsDir : Bool
  Size : Int
  Extension : String
deriving DecidableEq

/-- The directory-name exclusion table of `ShouldExclude`. -/
def excludeDirs : List String :=
  ["node_modules", ".git", ".idea", ".vscode", "__pycache__",
   "dist", "build", "target", "bin", "obj", ".next", ".nuxt",
   ".DS_Store", "vendor", "coverage", ".gradle", ".mvn",
   ".cache", ".npm", ".yarn", "venv", "env", ".env", ".pytest_cache"]

/-- The binary-extension exclusion table of `ShouldExclude`. -/
def binaryExts : List String :=
  [".exe", ".dll", ".so", ".dylib", ".o", ".obj", ".a", ".lib",
   ".bin", ".dat", ".db", ".sqlite", ".class"]

/-- `ShouldExclude` from `scanner.go`: a path is excluded when its base
name case-insensitively matches an excluded directory name, when its base
name is hidden (starts with a dot), or when the lower-cased path ends in a
known binary extension. -/
def ShouldExclude (path : String) : Bool :=
  let base := goBase path
  if excludeDirs.any (fun dir => equalFold base dir) then true
  else if startsWithL base.data ['.'] then true
  else if binaryExts.any (fun ext => endsWithL (lowerL path.data) ext.data) then true
  else false

mutual

/-- `ScanDirectory` from `scanner.go`: scans the directory at `rootPath`
(whose subtree is `node`) and builds the file chart.  Returns `[]` past
the depth bound (`maxDepth > 0` means bounded) and on unreadable roots. -/
def ScanDirectory (rootPath : String) (maxDepth currentDepth : Int) (pfx : String)
    (node : FSNode) : List FileEntry :=
  if maxDepth > 0 ∧ currentDepth > maxDepth then []
  else
    match node with
    | .file _ => []
    | .dir _ entries => scanEntries rootPath maxDepth currentDepth pfx entries

/-- The loop body of `ScanDirectory` over the entries of a directory:
excluded entries are skipped; each kept entry is emitted and, when it is a
directory, recursively scanned. -/
def scanEntries (rootPath : String) (maxDepth currentDepth : Int) (pfx : String) :
    List (String × FSNode) → List FileEntry
  | [] => []
  | (name, sub) :: rest =>
    let path := goJoin rootPath name
    if ShouldExclude path then scanEntries rootPath maxDepth currentDepth pfx rest
    else
      let isdir := match sub with | .dir _ _ => true | .file _ => false
      let size := match sub with | .dir sz _ => sz | .file sz => sz
      let ext := if isdir then "" else strLower (goExt name)
      let subEntries :=
        match sub with
        | .dir _ _ => ScanDirectory path maxDepth (currentDepth + 1) (pfx ++ name ++ "/") sub
        | .file _ => []
      ⟨pfx ++ name, isdir, size, ext⟩ :: (subEntries ++ scanEntries rootPath maxDepth currentDepth pfx rest)

end

/-! ## Health heuristics (`pkg/health`, `scanDependencies`)

`scanDependencies` picks the package manager by iterating over a Go map
literal `packageFiles` and keeping the first manifest file that exists.
Go map iteration order is unspecified, so the model takes the iteration
order as a parameter, constrained in the theorems to be a permutation of
the map's entries. -/

/-- The `packageFiles` map literal of `scanDependencies`, as written in
the source. -/
def packageFiles : List (String × String) :=
  [("package.json", "npm"), ("go.mod", "go"), ("requirements.txt", "pip"),
   ("Gemfile", "bundler"), ("pom.xml", "maven"), ("build.gradle", "gradle"),
   ("Cargo.toml", "cargo")]

/-- The package-manager selection loop of `scanDependencies`: the manager
of the first manifest file (in map-iteration order `order`) that exists
(`present`), or `""` when none does. -/
def scanDependenciesManager (order : List (String × String)) (present : String → Bool) : String :=
  match order with
  | [] => ""
  | (file, manager) :: rest =>
    if present file then manager else scanDependenciesManager rest present

/-! ## Interactive UI (`pkg/ui`)

Only the pure state transitions the verified properties are about are
modelled: the sort toggle of `handleListView`, the scrolling of
`handleActionsView` together with the clamping in `View`, and the submit
branch of `handleFormView`.  The `bubbles` list widget and text-input
internals (cursor, focus styling) are external collaborators. -/

/-- `ProjectItem` from `models.go`: a project row in the UI list. -/
structure ProjectItem where
  Name : String
  Path : String
  Category : String
deriving DecidableEq

/-- Lexicographic strict comparison on character lists: the model of Go's
`<` on strings (byte-wise lexicographic order, which agrees with scalar
value order on valid UTF-8). -/
def lexLt : List Char → List Char → Bool
  | [], [] => false
  | [], _ :: _ => true
  | _ :: _, [] => false
  | a :: as, b :: bs => if a < b then true else if b < a then false else lexLt as bs

/-- Model of Go's `<` on strings. -/
def strLt (a b : String) : Bool := lexLt a.data b.data

/-- Strict name order on project items. -/
abbrev nameLT (a b : ProjectItem) : Prop := strLt a.Name b.Name = true

/-- The ascending order established by `sort.Slice` with the less function
`Name_i < Name_j`: successive items satisfy `¬ (later < earlier)`. -/
abbrev nameLE (a b : ProjectItem) : Prop := strLt b.Name a.Name = false

/-- The descending order established by `sort.Slice` with the less
function `Name_i > Name_j`. -/
abbrev nameGE (a b : ProjectItem) : Prop := strLt a.Name b.Name = false

/-- Ascending sort by project name.  `sort.Slice` is an unstable sort;
on lists with pairwise-distinct names every sort agreeing with the
comparator produces the same list, so insertion sort models it. -/
def sortAsc (l : List ProjectItem) : List ProjectItem := l.insertionSort nameLE

/-- Descending sort by project name. -/
def sortDesc (l : List ProjectItem) : List ProjectItem := l.insertionSort nameGE

/-- The sort-key branch of `handleListView` (projects view): toggles the
order between `"asc"` and `"desc"` and re-sorts the project items. -/
def toggleSort (sortOrder : String) (items : List ProjectItem) : String × List ProjectItem :=
  if sortOrder = "asc" then ("desc", sortDesc items) else ("asc", sortAsc items)

/-- The items handed to `List.SetItems` after a sort: the full project
list, or the projects of the selected category when a category filter is
active. -/
def displayedItems (selectedCategory : String) (items : List ProjectItem) : List ProjectItem :=
  if selectedCategory ≠ "" then items.filter (fun p => p.Category == selectedCategory)
  else items

/-- The sorted-by-current-order invariant of the list view: `InitialModel`
sorts ascending, and every refresh re-applies the current order. -/
def sortedFor (sortOrder : String) (items : List ProjectItem) : Prop :=
  if sortOrder = "asc" then items.Sorted nameLE else items.Sorted nameGE

/-- The scrolling keys handled by `handleActionsView`. -/
inductive ScrollKey where
  | up
  | down
  | pgup
  | pgdown
  | home
  | endKey
deriving DecidableEq

/-- The scroll-offset update of `handleActionsView` for one key press:
`up` decrements when positive, `down` increments unconditionally, page
keys move by half the window height (falling back to 10), `home` jumps to
0, `end` sets a large value for `View` to clamp. -/
def stepScroll (windowHeight : Int) (offset : Int) : ScrollKey → Int
  | .up => if offset > 0 then offset - 1 else offset
  | .down => offset + 1
  | .pgup =>
    let pageSize := if windowHeight > 0 then Int.tdiv windowHeight 2 else 10
    if offset ≥ pageSize then offset - pageSize else 0
  | .pgdown =>
    let pageSize := if windowHeight > 0 then Int.tdiv windowHeight 2 else 10
    offset + pageSize
  | .home => 0
  | .endKey => 9999

/-- The scroll offset after a key sequence, starting from the 0 set when
the action view is entered. -/
def scrollAfter (windowHeight : Int) (keys : List ScrollKey) : Int :=
  keys.foldl (stepScroll windowHeight) 0

/-- The visible content height computed by `View`: the window height less
UI chrome, with a fallback of 30 when no size is known. -/
def visibleHeight (windowHeight : Int) : Int :=
  if windowHeight > 0 then windowHeight - 6 else 30

/-- The start line of the scrolled action view, as clamped by `View`:
never negative and never past `max 0 (numLines - visibleHeight)`. -/
def viewStartLine (scrollOffset numLines windowHeight : Int) : Int :=
  let visH := visibleHeight windowHeight
  let startLine := if scrollOffset < 0 then 0 else scrollOffset
  let maxStartLine := if numLines - visH < 0 then 0 else numLines - visH
  if startLine > maxStartLine then maxStartLine else startLine

/-- The slice of the `handleFormView` model relevant to the submit branch:
the three text inputs (name, path, category), the focused index, the form
visibility flag, the current sort order and the project items backing the
list. -/
structure FormModel where
  showForm : Bool
  formFocused : Nat
  input0 : String
  input1 : String
  input2 : String
  sortOrder : String
  projectItems : List ProjectItem
deriving DecidableEq

/-- Project items reloaded from the store after an add, with the
`"Uncategorized"` default applied. -/
def loadProjectItems (st : ConfigStore) : List ProjectItem :=
  (LoadConfig st).Projects.map fun p =>
    ⟨p.name, p.path, if p.category = "" then "Uncategorized" else p.category⟩

/-- Re-application of the current sort order after a refresh. -/
def sortFor (sortOrder : String) (l : List ProjectItem) : List ProjectItem :=
  if sortOrder = "asc" then sortAsc l else sortDesc l

/-- The `"enter"` case of `handleFormView`: on the last field, the trimmed
inputs are submitted — when name and path are both non-empty the project
is added, the list refreshed and re-sorted, and the form reset and closed;
otherwise nothing changes.  On an earlier field, focus advances. -/
def handleFormEnter (env : Env) (m : FormModel) (st : ConfigStore) :
    FormModel × ConfigStore :=
  if m.formFocused = 2 then
    let name := trimSpace m.input0
    let path := trimSpace m.input1
    let category := trimSpace m.input2
    if name ≠ "" ∧ path ≠ "" then
      let st' := AddProject st env name path category
      let items := sortFor m.sortOrder (loadProjectItems st')
      ({ m with projectItems := items, input0 := "", input1 := "", input2 := "",
                formFocused := 0, showForm := false }, st')
    else (m, st)
  else ({ m with formFocused := (m.formFocused + 1) % 3 }, st)

/-! ## JSON round-trip lemmas -/

theorem equalFold_name_name : equalFold "name" "name" = true := by decide

theorem equalFold_path_name : equalFold "path" "name" = false := by decide

theorem equalFold_path_path : equalFold "path" "path" = true := by decide

theorem equalFold_category_name : equalFold "category" "name" = false := by decide

theorem equalFold_category_path : equalFold "category" "path" = false := by decide

theorem equalFold_category_category : equalFold "category" "category" = true := by decide

theorem equalFold_projects_projects : equalFold "projects" "projects" = true := by decide

/-- Decoding inverts encoding on a single project. -/
theorem decodeProject_encodeProject (p : Project) :
    decodeProject (encodeProject p) = some p := by
  cases p with
  | mk name path category =>
    simp [decodeProject, encodeProject, decodeProjectFields,
      equalFold_name_name, equalFold_path_name, equalFold_path_path,
      equalFold_category_name, equalFold_category_path, equalFold_category_category]

/-- Decoding inverts encoding on a whole project list. -/
theorem decodeProjects_map_encodeProject (ps : List Project) :
    decodeProjects (ps.map encodeProject) = some ps := by
  induction ps with
  | nil => rfl
  | cons p rest ih =>
    simp [decodeProjects, decodeProject_encodeProject, ih]

/-- Decoding inverts encoding on a whole config document. -/
theorem decodeConfig_encodeConfig (c : Config) :
    decodeConfig (encodeConfig c) = some c := by
  cases c with
  | mk ps =>
    simp [decodeConfig, encodeConfig, decodeConfigFields,
      equalFold_projects_projects, decodeProjects_map_encodeProject]

/-- Saving then loading returns the saved project list. -/
theorem projectsOf_SaveConfig (ps : List Project) :
    projectsOf (SaveConfig ⟨ps⟩) = ps := by
  simp [projectsOf, LoadConfig, SaveConfig, decodeConfig_encodeConfig]

/-- C1.  For every `Config` value `c`, saving `c` with `SaveConfig` and
then calling `LoadConfig` returns a `Config` whose `Projects` sequence is
identical to `c.Projects`, element for element and in the same order. -/
theorem save_load_roundtrip (c : Config) :
    (LoadConfig (SaveConfig c)).Projects = c.Projects := by
  cases c with
  | mk ps => simpa [projectsOf] using projectsOf_SaveConfig ps

/-! ## List-level lemmas about add/remove/find -/

/-- When a project with the given name is present, `addProjectList`
replaces the first occurrence in place. -/
theorem addProjectList_decomp (l : List Project) (name a c : String)
    (h : ∃ p ∈ l, p.name = name) :
    ∃ l1 e l2, l = l1 ++ e :: l2 ∧ e.name = name ∧ (∀ x ∈ l1, x.name ≠ name) ∧
      addProjectList l name a c = l1 ++ ⟨name, a, c⟩ :: l2 := by
  induction l with
  | nil => simp at h
  | cons p rest ih =>
    by_cases hp : p.name = name
    · exact ⟨[], p, rest, by simp, hp, by simp, by simp [addProjectList, hp]⟩
    · obtain ⟨q, hq, hqname⟩ := h
      rcases List.mem_cons.mp hq with rfl | hqrest
      · exact absurd hqname hp
      · obtain ⟨l1, e, l2, hdec, hename, hclean, hadd⟩ := ih ⟨q, hqrest, hqname⟩
        exact ⟨p :: l1, e, l2, by simp [hdec], hename,
          by simpa [hp] using hclean, by simp [addProjectList, hp, hadd]⟩

/-- `addProjectList` does not change the projects with a different name. -/
theorem addProjectList_filter_ne (l : List Project) (name a c : String) :
    (addProjectList l name a c).filter (fun q => q.name != name)
      = l.filter (fun q => q.name != name) := by
  induction l with
  | nil => simp [addProjectList]
  | cons p rest ih =>
    by_cases hp : p.name = name
    · simp [addProjectList, hp, List.filter_cons]
    · simp [addProjectList, hp, List.filter_cons, ih]

/-- `removeProjectList` returns `none` exactly when no project has the
given name. -/
theorem removeProjectList_eq_none (l : List Project) (n : String) :
    removeProjectList l n = none ↔ ∀ p ∈ l, p.name ≠ n := by
  induction l with
  | nil => simp [removeProjectList]
  | cons p rest ih =>
    by_cases hp : p.name = n
    · simp [removeProjectList, hp]
    · simp [removeProjectList, hp, ih]

/-- A successful `removeProjectList` removes exactly the first project
with the given name. -/
theorem removeProjectList_some_decomp (l : List Project) (n : String) (l' : List Project)
    (h : removeProjectList l n = some l') :
    ∃ l1 e l2, l = l1 ++ e :: l2 ∧ e.name = n ∧ (∀ x ∈ l1, x.name ≠ n) ∧
      l' = l1 ++ l2 := by
  induction l generalizing l' with
  | nil => simp [removeProjectList] at h
  | cons p rest ih =>
    by_cases hp : p.name = n
    · rw [removeProjectList, if_pos hp] at h
      obtain rfl := Option.some.inj h
      exact ⟨[], p, rest, by simp, hp, by simp, by simp⟩
    · rw [removeProjectList, if_neg hp] at h
      rcases hrec : removeProjectList rest n with _ | l''
      · rw [hrec] at h
        simp at h
      · rw [hrec] at h
        simp only [Option.map_some'] at h
        obtain rfl := Option.some.inj h
        obtain ⟨l1, e, l2, hdec, hename, hclean, rfl⟩ := ih l'' hrec
        exact ⟨p :: l1, e, l2, by simp [hdec], hename, by simpa [hp] using hclean, by simp⟩

/-- Removing the first project with a given name, when the prefix before
it is clean. -/
theorem removeProjectList_of_decomp (l1 : List Project) (e : Project) (l2 : List Project)
    (n : String) (hename : e.name = n) (hclean : ∀ x ∈ l1, x.name ≠ n) :
    removeProjectList (l1 ++ e :: l2) n = some (l1 ++ l2) := by
  induction l1 with
  | nil => simp [removeProjectList, hename]
  | cons p rest ih =>
    have hp : p.name ≠ n := hclean p (by simp)
    have ihh := ih fun x hx => hclean x (by simp [hx])
    simp only [List.cons_append, removeProjectList, if_neg hp, List.append_eq, ihh,
      Option.map_some']

/-- When no project has the given name, lookup returns the empty path. -/
theorem findPathList_eq_empty (l : List Project) (n : String)
    (h : ∀ p ∈ l, p.name ≠ n) : findPathList l n = "" := by
  induction l with
  | nil => rfl
  | cons p rest ih =>
    have hp : p.name ≠ n := h p (by simp)
    simp only [findPathList, hp, if_false]
    exact ih fun x hx => h x (by simp [hx])

/-- The stored projects after an `AddProject`. -/
theorem projectsOf_AddProject (st : ConfigStore) (env : Env) (name path category : String) :
    projectsOf (AddProject st env name path category)
      = addProjectList (projectsOf st) name (normalizePath env path) category := by
  simp only [AddProject, projectsOf]
  exact save_load_roundtrip _

/-- C2.  For every stored `Config` and every call
`AddProject(name, path, category)` where some project with that exact name
already exists, the resulting stored project sequence has the same length
as before, the matching entry's path and category are replaced in place at
its original position, and no duplicate entry with that name is created. -/
theorem addProject_existing_overwrites_in_place
    (st : ConfigStore) (env : Env) (name path category : String)
    (hpresent : ∃ p ∈ projectsOf st, p.name = name) :
    (projectsOf (AddProject st env name path category)).length = (projectsOf st).length ∧
    (∃ l1 e l2, projectsOf st = l1 ++ e :: l2 ∧ e.name = name ∧
      (∀ x ∈ l1, x.name ≠ name) ∧
      projectsOf (AddProject st env name path category)
        = l1 ++ ⟨name, normalizePath env path, category⟩ :: l2) ∧
    (projectsOf (AddProject st env name path category)).countP (fun p => p.name == name)
      = (projectsOf st).countP (fun p => p.name == name) := by
  obtain ⟨l1, e, l2, hdec, hename, hclean, hadd⟩ :=
    addProjectList_decomp (projectsOf st) name (normalizePath env path) category hpresent
  rw [projectsOf_AddProject, hadd, hdec]
  refine ⟨by simp, ⟨l1, e, l2, rfl, hename, hclean, rfl⟩, ?_⟩
  simp [List.countP_append, List.countP_cons, hename]

/-- Witness for C2: a store holding `demo` and `x`; adding `demo` again
replaces it in place. -/
theorem addProject_existing_overwrites_in_place_witness :
    (∃ p ∈ projectsOf (SaveConfig ⟨[⟨"demo", "/a", "w"⟩, ⟨"x", "/b", "y"⟩]⟩), p.name = "demo") ∧
    ((projectsOf (AddProject (SaveConfig ⟨[⟨"demo", "/a", "w"⟩, ⟨"x", "/b", "y"⟩]⟩)
        ⟨"/h", "/w"⟩ "demo" "/new" "cat")).length
      = (projectsOf (SaveConfig ⟨[⟨"demo", "/a", "w"⟩, ⟨"x", "/b", "y"⟩]⟩)).length ∧
     (∃ l1 e l2, projectsOf (SaveConfig ⟨[⟨"demo", "/a", "w"⟩, ⟨"x", "/b", "y"⟩]⟩)
          = l1 ++ e :: l2 ∧ e.name = "demo" ∧ (∀ x ∈ l1, x.name ≠ "demo") ∧
        projectsOf (AddProject (SaveConfig ⟨[⟨"demo", "/a", "w"⟩, ⟨"x", "/b", "y"⟩]⟩)
            ⟨"/h", "/w"⟩ "demo" "/new" "cat")
          = l1 ++ ⟨"demo", normalizePath ⟨"/h", "/w"⟩ "/new", "cat"⟩ :: l2) ∧
     (projectsOf (AddProject (SaveConfig ⟨[⟨"demo", "/a", "w"⟩, ⟨"x", "/b", "y"⟩]⟩)
        ⟨"/h", "/w"⟩ "demo" "/new" "cat")).countP (fun p => p.name == "demo")
      = (projectsOf (SaveConfig ⟨[⟨"demo", "/a", "w"⟩, ⟨"x", "/b", "y"⟩]⟩)).countP
          (fun p => p.name == "demo")) :=
  ⟨by decide,
   addProject_existing_overwrites_in_place
     (SaveConfig ⟨[⟨"demo", "/a", "w"⟩, ⟨"x", "/b", "y"⟩]⟩)
     ⟨"/h", "/w"⟩ "demo" "/new" "cat" (by decide)⟩

/-- C3.  For every project name `n` present at most once in the stored
`Config`, after `RemoveProject n` a subsequent `GoToProject n` reports
not-found by returning the empty path. -/
theorem remove_then_lookup_not_found (st : ConfigStore) (n : String)
    (hcount : (projectsOf st).countP (fun p => p.name == n) ≤ 1) :
    GoToProject (RemoveProject st n) n = "" := by
  rcases h : removeProjectList (LoadConfig st).Projects n with _ | l'
  · have hall := (removeProjectList_eq_none _ n).mp h
    simp only [GoToProject, RemoveProject, h]
    exact findPathList_eq_empty _ n hall
  · obtain ⟨l1, e, l2, hdec, hename, hclean, rfl⟩ :=
      removeProjectList_some_decomp _ n l' h
    have hz : ∀ p ∈ l1 ++ l2, p.name ≠ n := by
      have hc := hcount
      rw [show projectsOf st = l1 ++ e :: l2 from hdec] at hc
      simp only [List.countP_append, List.countP_cons, hename, beq_self_eq_true,
        if_true] at hc
      have h1 : l1.countP (fun p => p.name == n) = 0 := by omega
      have h2 : l2.countP (fun p => p.name == n) = 0 := by omega
      intro p hp
      rcases List.mem_append.mp hp with hp1 | hp2
      · simpa using List.countP_eq_zero.mp h1 p hp1
      · simpa using List.countP_eq_zero.mp h2 p hp2
    simp only [GoToProject, RemoveProject, h, save_load_roundtrip]
    exact findPathList_eq_empty _ n hz

/-- Witness for C3: removing the unique `demo` project makes lookup fail. -/
theorem remove_then_lookup_not_found_witness :
    (projectsOf (SaveConfig ⟨[⟨"demo", "/a", "w"⟩, ⟨"x", "/b", "y"⟩]⟩)).countP
        (fun p => p.name == "demo") ≤ 1 ∧
    GoToProject (RemoveProject (SaveConfig ⟨[⟨"demo", "/a", "w"⟩, ⟨"x", "/b", "y"⟩]⟩)
      "demo") "demo" = "" :=
  ⟨by decide,
   remove_then_lookup_not_found (SaveConfig ⟨[⟨"demo", "/a", "w"⟩, ⟨"x", "/b", "y"⟩]⟩)
     "demo" (by decide)⟩

/-- The stored projects after a `RemoveProject`, in decomposed form. -/
theorem projectsOf_RemoveProject_decomp (st : ConfigStore) (n : String)
    (l1 : List Project) (e : Project) (l2 : List Project)
    (hdec : projectsOf st = l1 ++ e :: l2) (hename : e.name = n)
    (hclean : ∀ x ∈ l1, x.name ≠ n) :
    projectsOf (RemoveProject st n) = l1 ++ l2 := by
  have h : removeProjectList (LoadConfig st).Projects n = some (l1 ++ l2) := by
    rw [show (LoadConfig st).Projects = l1 ++ e :: l2 from hdec]
    exact removeProjectList_of_decomp l1 e l2 n hename hclean
  simp only [RemoveProject, h]
  exact projectsOf_SaveConfig _

/-- C9.  `RemoveProject n` and `AddProject n p c` modify at most the
single project entry whose name equals `n`: every project with a different
name is unchanged and the relative order of all untouched entries is
preserved (their subsequence is literally equal); `RemoveProject` removes
only the first entry matching `n`, leaving later duplicates intact. -/
theorem add_remove_frame (st : ConfigStore) (env : Env) (n p c : String) :
    (projectsOf (AddProject st env n p c)).filter (fun q => q.name != n)
      = (projectsOf st).filter (fun q => q.name != n) ∧
    (projectsOf (RemoveProject st n)).filter (fun q => q.name != n)
      = (projectsOf st).filter (fun q => q.name != n) ∧
    (∀ l1 e l2, projectsOf st = l1 ++ e :: l2 → e.name = n →
      (∀ x ∈ l1, x.name ≠ n) → projectsOf (RemoveProject st n) = l1 ++ l2) := by
  refine ⟨?_, ?_, fun l1 e l2 hdec hename hclean =>
    projectsOf_RemoveProject_decomp st n l1 e l2 hdec hename hclean⟩
  · rw [projectsOf_AddProject]
    exact addProjectList_filter_ne _ n _ c
  · rcases h : removeProjectList (LoadConfig st).Projects n with _ | l'
    · simp only [RemoveProject, h]
    · obtain ⟨l1, e, l2, hdec, hename, hclean, rfl⟩ :=
        removeProjectList_some_decomp _ n l' h
      simp only [RemoveProject, h, projectsOf_SaveConfig]
      rw [show projectsOf st = l1 ++ e :: l2 from hdec]
      simp [List.filter_append, List.filter_cons, hename]

/-- Witness for C9: with duplicates of `n`, removal deletes only the first
and keeps the later duplicate, and other entries are untouched. -/
theorem add_remove_frame_witness :
    ((projectsOf (AddProject (SaveConfig ⟨[⟨"a", "/a", "c"⟩, ⟨"n", "/1", "c"⟩, ⟨"n", "/2", "c"⟩]⟩)
        ⟨"/h", "/w"⟩ "n" "/new" "k")).filter (fun q => q.name != "n")
      = (projectsOf (SaveConfig ⟨[⟨"a", "/a", "c"⟩, ⟨"n", "/1", "c"⟩, ⟨"n", "/2", "c"⟩]⟩)).filter
          (fun q => q.name != "n")) ∧
    projectsOf (RemoveProject (SaveConfig ⟨[⟨"a", "/a", "c"⟩, ⟨"n", "/1", "c"⟩, ⟨"n", "/2", "c"⟩]⟩) "n")
      = [⟨"a", "/a", "c"⟩] ++ [⟨"n", "/2", "c"⟩] :=
  ⟨(add_remove_frame (SaveConfig ⟨[⟨"a", "/a", "c"⟩, ⟨"n", "/1", "c"⟩, ⟨"n", "/2", "c"⟩]⟩)
      ⟨"/h", "/w"⟩ "n" "/new" "k").1,
   (add_remove_frame (SaveConfig ⟨[⟨"a", "/a", "c"⟩, ⟨"n", "/1", "c"⟩, ⟨"n", "/2", "c"⟩]⟩)
      ⟨"/h", "/w"⟩ "n" "/new" "k").2.2
     [⟨"a", "/a", "c"⟩] ⟨"n", "/1", "c"⟩ [⟨"n", "/2", "c"⟩] (by decide) (by decide) (by decide)⟩

/-! ## Absoluteness of stored paths (C4) -/

/-- Cleaning a rooted path yields a rooted path. -/
theorem cleanL_head_slash (l : List Char) (h : l.head? = some '/') :
    (cleanL l).head? = some '/' := by
  simp only [cleanL, h, beq_self_eq_true, if_true]
  split <;> simp

/-- `startsWithL` with a one-character pattern inspects the head. -/
theorem startsWithL_singleton (l : List Char) (c : Char) :
    startsWithL l [c] = true ↔ l.head? = some c := by
  cases l with
  | nil => simp [startsWithL]
  | cons x xs => simp [startsWithL, List.take_succ_cons]

/-- `goClean` preserves absoluteness. -/
theorem goClean_isAbs (s : String) (h : goIsAbs s = true) : goIsAbs (goClean s) = true := by
  rw [goIsAbs, startsWithL_singleton] at h ⊢
  exact cleanL_head_slash _ h

/-- `goJoin` onto an absolute path is absolute. -/
theorem goJoin_isAbs (a b : String) (h : goIsAbs a = true) : goIsAbs (goJoin a b) = true := by
  have hhead : a.data.head? = some '/' := (startsWithL_singleton _ _).mp h
  have hne : a.data ≠ [] := by
    intro hnil
    rw [hnil] at hhead
    simp at hhead
  unfold goJoin
  rw [if_neg hne]
  by_cases hb : b.data = []
  · rw [if_pos hb]
    exact goClean_isAbs a h
  · rw [if_neg hb, goIsAbs, startsWithL_singleton]
    apply cleanL_head_slash
    rcases ha : a.data with _ | ⟨c, cs⟩
    · exact absurd ha hne
    · rw [ha] at hhead
      simpa using hhead

/-- `filepath.Abs` always returns an absolute path (given an absolute
working directory). -/
theorem goAbs_isAbs (wd p : String) (hwd : goIsAbs wd = true) :
    goIsAbs (goAbs wd p) = true := by
  unfold goAbs
  by_cases hp : goIsAbs p = true
  · rw [if_pos hp]
    exact goClean_isAbs p hp
  · rw [if_neg (by simpa using hp)]
    exact goJoin_isAbs wd p hwd

/-- The normalized path written by `AddProject` is absolute. -/
theorem normalizePath_isAbs (env : Env) (path : String) (hwd : goIsAbs env.wd = true) :
    goIsAbs (normalizePath env path) = true :=
  goAbs_isAbs env.wd _ hwd

/-- Every member of `addProjectList` is an old member or the new entry. -/
theorem mem_addProjectList (l : List Project) (n a c : String) (p : Project)
    (h : p ∈ addProjectList l n a c) : p ∈ l ∨ p = ⟨n, a, c⟩ := by
  induction l with
  | nil => simpa [addProjectList] using h
  | cons q rest ih =>
    by_cases hq : q.name = n
    · rw [addProjectList, if_pos hq] at h
      rcases List.mem_cons.mp h with rfl | hrest
      · exact Or.inr rfl
      · exact Or.inl (List.mem_cons_of_mem _ hrest)
    · rw [addProjectList, if_neg hq] at h
      rcases List.mem_cons.mp h with rfl | hrest
      · exact Or.inl (List.mem_cons_self _ _)
      · rcases ih hrest with hmem | hnew
        · exact Or.inl (List.mem_cons_of_mem _ hmem)
        · exact Or.inr hnew

/-- C4.  Every path stored by `AddProject` is absolute: a leading `~` in
the input path is expanded to the home directory and the result is
converted to an absolute path before being written, so the invariant "all
stored project paths are absolute" is preserved by every add operation
(given the process home and working directories are absolute, which
`os.UserHomeDir`/`os.Getwd` guarantee). -/
theorem addProject_stores_absolute_paths (st : ConfigStore) (env : Env)
    (name path category : String)
    (hhome : goIsAbs env.home = true) (hwd : goIsAbs env.wd = true)
    (hprev : ∀ p ∈ projectsOf st, goIsAbs p.path = true) :
    ∀ p ∈ projectsOf (AddProject st env name path category), goIsAbs p.path = true := by
  intro p hp
  rw [projectsOf_AddProject] at hp
  rcases mem_addProjectList _ _ _ _ p hp with hold | rfl
  · exact hprev p hold
  · exact normalizePath_isAbs env path hwd

/-- Witness for C4: adding a `~`-path over an absolute store keeps all
paths absolute. -/
theorem addProject_stores_absolute_paths_witness :
    goIsAbs (Env.mk "/home/u" "/cwd").home = true ∧
    goIsAbs (Env.mk "/home/u" "/cwd").wd = true ∧
    (∀ p ∈ projectsOf (SaveConfig ⟨[⟨"a", "/x", "c"⟩]⟩), goIsAbs p.path = true) ∧
    ∀ p ∈ projectsOf (AddProject (SaveConfig ⟨[⟨"a", "/x", "c"⟩]⟩) ⟨"/home/u", "/cwd"⟩
      "b" "~/code/demo" "k"), goIsAbs p.path = true :=
  ⟨by decide, by decide, by decide,
   addProject_stores_absolute_paths (SaveConfig ⟨[⟨"a", "/x", "c"⟩]⟩) ⟨"/home/u", "/cwd"⟩
     "b" "~/code/demo" "k" (by decide) (by decide) (by decide)⟩

/-! ## Order theory for the name sort (C5) -/

theorem lexLt_asymm : ∀ a b : List Char, lexLt a b = true → lexLt b a = false
  | [], [] => by simp [lexLt]
  | [], _ :: _ => by simp [lexLt]
  | _ :: _, [] => by simp [lexLt]
  | a :: as, b :: bs => by
    intro h
    rw [lexLt] at h ⊢
    rcases lt_trichotomy a b with hab | rfl | hba
    · rw [if_neg (lt_asymm hab), if_pos hab]
    · rw [if_neg (lt_irrefl a), if_neg (lt_irrefl a)] at h ⊢
      exact lexLt_asymm as bs h
    · rw [if_neg (lt_asymm hba), if_pos hba] at h
      exact absurd h (by simp)

theorem lexLt_trans : ∀ a b c : List Char,
    lexLt a b = true → lexLt b c = true → lexLt a c = true
  | [], _, _ :: _, _, _ => by simp [lexLt]
  | [], b, [], _, h2 => by cases b <;> simp [lexLt] at h2
  | _ :: _, [], _, h1, _ => by simp [lexLt] at h1
  | _ :: _, _ :: _, [], _, h2 => by simp [lexLt] at h2
  | a :: as, b :: bs, c :: cs, h1, h2 => by
    rw [lexLt] at h1 h2 ⊢
    rcases lt_trichotomy a b with hab | rfl | hba
    · rcases lt_trichotomy b c with hbc | rfl | hcb
      · rw [if_pos (lt_trans hab hbc)]
      · rw [if_pos hab]
      · rw [if_neg (lt_asymm hcb), if_pos hcb] at h2
        exact absurd h2 (by simp)
    · rw [if_neg (lt_irrefl a), if_neg (lt_irrefl a)] at h1
      rcases lt_trichotomy a c with hac | rfl | hca
      · rw [if_pos hac]
      · rw [if_neg (lt_irrefl a), if_neg (lt_irrefl a)] at h2 ⊢
        exact lexLt_trans as bs cs h1 h2
      · rw [if_neg (lt_asymm hca), if_pos hca] at h2
        exact absurd h2 (by simp)
    · rw [if_neg (lt_asymm hba), if_pos hba] at h1
      exact absurd h1 (by simp)

theorem lexLt_eq_of_both_false : ∀ a b : List Char,
    lexLt a b = false → lexLt b a = false → a = b
  | [], [], _, _ => rfl
  | [], _ :: _, h1, _ => by simp [lexLt] at h1
  | _ :: _, [], _, h2 => by simp [lexLt] at h2
  | a :: as, b :: bs, h1, h2 => by
    rw [lexLt] at h1 h2
    rcases lt_trichotomy a b with hab | rfl | hba
    · rw [if_pos hab] at h1
      exact absurd h1 (by simp)
    · rw [if_neg (lt_irrefl a), if_neg (lt_irrefl a)] at h1 h2
      rw [lexLt_eq_of_both_false as bs h1 h2]
    · rw [if_pos hba] at h2
      exact absurd h2 (by simp)

theorem strLt_asymm (a b : String) (h : strLt a b = true) : strLt b a = false :=
  lexLt_asymm a.data b.data h

theorem strLt_eq_of_both_false (a b : String) (h1 : strLt a b = false)
    (h2 : strLt b a = false) : a = b := by
  have hd := lexLt_eq_of_both_false a.data b.data h1 h2
  cases a
  cases b
  simp only at hd
  rw [hd]

theorem strLt_le_trans (a b c : String) (h1 : strLt b a = false)
    (h2 : strLt c b = false) : strLt c a = false := by
  cases hca : strLt c a with
  | false => rfl
  | true =>
    cases hbc : strLt b c with
    | true =>
      have := lexLt_trans b.data c.data a.data hbc hca
      rw [strLt] at h1
      rw [this] at h1
      exact absurd h1 (by simp)
    | false =>
      have hcb := strLt_eq_of_both_false c b h2 hbc
      rw [hcb] at hca
      rw [hca] at h1
      exact absurd h1 (by simp)

instance : IsTotal ProjectItem nameLE :=
  ⟨fun a b => by
    cases h : strLt b.Name a.Name with
    | false => exact Or.inl h
    | true => exact Or.inr (strLt_asymm _ _ h)⟩

instance : IsTrans ProjectItem nameLE :=
  ⟨fun a b c h1 h2 => strLt_le_trans a.Name b.Name c.Name h1 h2⟩

instance : IsTotal ProjectItem nameGE :=
  ⟨fun a b => by
    cases h : strLt a.Name b.Name with
    | false => exact Or.inl h
    | true => exact Or.inr (strLt_asymm _ _ h)⟩

instance : IsTrans ProjectItem nameGE :=
  ⟨fun a b c h1 h2 => strLt_le_trans c.Name b.Name a.Name h2 h1⟩

/-- Strict descending name order. -/
abbrev nameGT (a b : ProjectItem) : Prop := strLt b.Name a.Name = true

instance : IsAntisymm ProjectItem nameLT :=
  ⟨fun a b h1 h2 => by
    have h3 : strLt b.Name a.Name = false := strLt_asymm _ _ h1
    have h4 : strLt b.Name a.Name = true := h2
    rw [h3] at h4
    exact absurd h4 (by simp)⟩

instance : IsAntisymm ProjectItem nameGT :=
  ⟨fun a b h1 h2 => by
    have h3 : strLt a.Name b.Name = false := strLt_asymm _ _ h1
    have h4 : strLt a.Name b.Name = true := h2
    rw [h3] at h4
    exact absurd h4 (by simp)⟩

/-- A `≤`-sorted list with pairwise-distinct names is strictly sorted. -/
theorem sorted_nameLE_strict (l : List ProjectItem) (hs : l.Sorted nameLE)
    (hnd : (l.map ProjectItem.Name).Nodup) : l.Sorted nameLT := by
  have hne : l.Pairwise (fun a b => a.Name ≠ b.Name) := List.pairwise_map.mp hnd
  refine (hs.and hne).imp ?_
  rintro a b ⟨hle, hne2⟩
  cases hlt : strLt a.Name b.Name with
  | true => exact hlt
  | false => exact absurd (strLt_eq_of_both_false _ _ hlt hle) hne2

/-- A `≥`-sorted list with pairwise-distinct names is strictly sorted
descending. -/
theorem sorted_nameGE_strict (l : List ProjectItem) (hs : l.Sorted nameGE)
    (hnd : (l.map ProjectItem.Name).Nodup) : l.Sorted nameGT := by
  have hne : l.Pairwise (fun a b => a.Name ≠ b.Name) := List.pairwise_map.mp hnd
  refine (hs.and hne).imp ?_
  rintro a b ⟨hle, hne2⟩
  cases hlt : strLt b.Name a.Name with
  | true => exact hlt
  | false => exact absurd (strLt_eq_of_both_false _ _ hle hlt) hne2

/-- C5.  For any sequence of projects shown in the interactive list view,
pressing the sort-toggle key twice returns the list to the original
relative order for entries with distinct names: the double toggle is an
identity on the project ordering.  Lists shown in the view are always
sorted by the current `SortOrder` (`InitialModel` sorts ascending and
every refresh re-applies the current order), which the `sortedFor`
hypothesis captures; the displayed (possibly category-filtered) items are
restored as well. -/
theorem sort_toggle_involution (sortOrder : String) (items : List ProjectItem)
    (selectedCategory : String)
    (hord : sortOrder = "asc" ∨ sortOrder = "desc")
    (hnodup : (items.map ProjectItem.Name).Nodup)
    (hsorted : sortedFor sortOrder items) :
    toggleSort (toggleSort sortOrder items).1 (toggleSort sortOrder items).2
      = (sortOrder, items) ∧
    displayedItems selectedCategory
        (toggleSort (toggleSort sortOrder items).1 (toggleSort sortOrder items).2).2
      = displayedItems selectedCategory items := by
  have tasc : ∀ l : List ProjectItem, toggleSort "asc" l = ("desc", sortDesc l) := by
    intro l
    unfold toggleSort
    rw [if_pos rfl]
  have tdesc : ∀ l : List ProjectItem, toggleSort "desc" l = ("asc", sortAsc l) := by
    intro l
    unfold toggleSort
    rw [if_neg (by decide)]
  have main : toggleSort (toggleSort sortOrder items).1 (toggleSort sortOrder items).2
      = (sortOrder, items) := by
    rcases hord with rfl | rfl
    · have hs : items.Sorted nameLE := by simpa [sortedFor] using hsorted
      rw [tasc items]
      show toggleSort "desc" (sortDesc items) = ("asc", items)
      rw [tdesc]
      have hperm : List.Perm (sortAsc (sortDesc items)) items :=
        (List.perm_insertionSort _ _).trans (List.perm_insertionSort _ _)
      have hnd2 : ((sortAsc (sortDesc items)).map ProjectItem.Name).Nodup :=
        ((hperm.map _).nodup_iff).mpr hnodup
      have hs1 : (sortAsc (sortDesc items)).Sorted nameLT :=
        sorted_nameLE_strict _ (List.sorted_insertionSort _ _) hnd2
      have hs2 : items.Sorted nameLT := sorted_nameLE_strict _ hs hnodup
      rw [List.eq_of_perm_of_sorted hperm hs1 hs2]
    · have hs : items.Sorted nameGE := by simpa [sortedFor] using hsorted
      rw [tdesc items]
      show toggleSort "asc" (sortAsc items) = ("desc", items)
      rw [tasc]
      have hperm : List.Perm (sortDesc (sortAsc items)) items :=
        (List.perm_insertionSort _ _).trans (List.perm_insertionSort _ _)
      have hnd2 : ((sortDesc (sortAsc items)).map ProjectItem.Name).Nodup :=
        ((hperm.map _).nodup_iff).mpr hnodup
      have hs1 : (sortDesc (sortAsc items)).Sorted nameGT :=
        sorted_nameGE_strict _ (List.sorted_insertionSort _ _) hnd2
      have hs2 : items.Sorted nameGT := sorted_nameGE_strict _ hs hnodup
      rw [List.eq_of_perm_of_sorted hperm hs1 hs2]
  exact ⟨main, by rw [main]⟩

/-- Witness for C5: a two-project ascending list is restored by a double
toggle. -/
theorem sort_toggle_involution_witness :
    (("asc" : String) = "asc" ∨ ("asc" : String) = "desc") ∧
    (([⟨"a", "/p1", "c"⟩, ⟨"b", "/p2", "c"⟩] : List ProjectItem).map ProjectItem.Name).Nodup ∧
    sortedFor "asc" [⟨"a", "/p1", "c"⟩, ⟨"b", "/p2", "c"⟩] ∧
    toggleSort (toggleSort "asc" [⟨"a", "/p1", "c"⟩, ⟨"b", "/p2", "c"⟩]).1
        (toggleSort "asc" [⟨"a", "/p1", "c"⟩, ⟨"b", "/p2", "c"⟩]).2
      = ("asc", [⟨"a", "/p1", "c"⟩, ⟨"b", "/p2", "c"⟩]) :=
  ⟨Or.inl rfl, by decide, by unfold sortedFor; rw [if_pos rfl]; decide,
   (sort_toggle_involution "asc" [⟨"a", "/p1", "c"⟩, ⟨"b", "/p2", "c"⟩] ""
     (Or.inl rfl) (by decide) (by unfold sortedFor; rw [if_pos rfl]; decide)).1⟩

/-! ## Scrolling in the action view (C6) -/

/-- C6 counterexample.  The claim says the scroll offset stays within
`[0, max 0 (L - H)]` after any sequence of down/page-down/end events.  For
one-line content (`L = 1`) in a 36-row window (`H = 30`), a single "down"
raises the stored offset to `1 > max 0 (1 - 30) = 0`: `handleActionsView`
increments `m.ScrollOffset` without any upper clamp. -/
theorem scroll_offset_bound_counterexample :
    scrollAfter 36 [ScrollKey.down] = 1 ∧ visibleHeight 36 = 30 ∧
    ¬ scrollAfter 36 [ScrollKey.down] ≤ max 0 (1 - visibleHeight 36) := by
  refine ⟨by decide, by decide, by decide⟩

/-- One scroll step keeps the offset non-negative. -/
theorem stepScroll_nonneg (windowHeight offset : Int) (k : ScrollKey)
    (h : 0 ≤ offset) : 0 ≤ stepScroll windowHeight offset k := by
  have hpage : (0 : Int) ≤ if windowHeight > 0 then Int.tdiv windowHeight 2 else 10 := by
    by_cases hw : windowHeight > 0
    · rw [if_pos hw]
      exact Int.tdiv_nonneg (le_of_lt hw) (by norm_num)
    · rw [if_neg hw]
      norm_num
  cases k with
  | up =>
    rw [stepScroll]
    split_ifs <;> omega
  | down =>
    rw [stepScroll]
    omega
  | pgup =>
    rw [stepScroll]
    split_ifs at hpage ⊢ <;> omega
  | pgdown =>
    rw [stepScroll]
    split_ifs at hpage ⊢ <;> omega
  | home =>
    rw [stepScroll]
  | endKey =>
    rw [stepScroll]
    norm_num

/-- C6 amended.  After any sequence of scroll key events the stored
offset never goes below 0 (so the lower bound of the claim holds), and the
start line actually used for rendering — computed by `View` from the
stored offset — always lies within `[0, max 0 (L - H)]`; the stored
offset itself has no upper clamp (see the counterexample). -/
theorem scroll_nonneg_and_view_clamped (windowHeight : Int) (keys : List ScrollKey)
    (scrollOffset numLines : Int) :
    0 ≤ scrollAfter windowHeight keys ∧
    0 ≤ viewStartLine scrollOffset numLines windowHeight ∧
    viewStartLine scrollOffset numLines windowHeight
      ≤ max 0 (numLines - visibleHeight windowHeight) := by
  refine ⟨?_, ?_, ?_⟩
  · have gen : ∀ (ks : List ScrollKey) (off : Int), 0 ≤ off →
        0 ≤ ks.foldl (stepScroll windowHeight) off := by
      intro ks
      induction ks with
      | nil => intro off h; simpa using h
      | cons k rest ih =>
        intro off h
        exact ih _ (stepScroll_nonneg windowHeight off k h)
    exact gen keys 0 le_rfl
  · rw [viewStartLine]
    split_ifs <;> omega
  · rw [viewStartLine]
    split_ifs <;> omega

/-! ## Package-manager detection (C7) -/

/-- C7 counterexample.  `scanDependencies` iterates a Go map literal,
whose iteration order is unspecified; the claimed fixed priority "first of
npm, go, pip, …" does not hold: for a directory containing both
`package.json` and `go.mod`, one admissible iteration order yields "npm"
and another yields "go", so the detected manager is not a function of
which manifests exist. -/
theorem package_manager_priority_counterexample :
    List.Perm
      [("go.mod", "go"), ("package.json", "npm"), ("requirements.txt", "pip"),
       ("Gemfile", "bundler"), ("pom.xml", "maven"), ("build.gradle", "gradle"),
       ("Cargo.toml", "cargo")] packageFiles ∧
    scanDependenciesManager packageFiles
      (fun f => f == "package.json" || f == "go.mod") = "npm" ∧
    scanDependenciesManager
      [("go.mod", "go"), ("package.json", "npm"), ("requirements.txt", "pip"),
       ("Gemfile", "bundler"), ("pom.xml", "maven"), ("build.gradle", "gradle"),
       ("Cargo.toml", "cargo")]
      (fun f => f == "package.json" || f == "go.mod") = "go" ∧
    ("go" : String) ≠ "npm" := by
  refine ⟨by decide, by decide, by decide, by decide⟩

/-- The selection loop returns the manager of the unique present manifest,
for any iteration order drawn from the table. -/
theorem scanDependenciesManager_unique_aux (order : List (String × String))
    (present : String → Bool) (f mgr : String)
    (hsub : ∀ e ∈ order, e ∈ packageFiles) (hmem : (f, mgr) ∈ order)
    (hpres : present f = true)
    (huniq : ∀ e ∈ packageFiles, present e.1 = true → e = (f, mgr)) :
    scanDependenciesManager order present = mgr := by
  induction order with
  | nil => simp at hmem
  | cons e rest ih =>
    obtain ⟨g, mg⟩ := e
    rw [scanDependenciesManager]
    by_cases hg : present g = true
    · have heq := huniq (g, mg) (hsub (g, mg) (by simp)) hg
      rw [if_pos hg]
      exact (Prod.mk.injEq .. ▸ heq).2
    · rw [if_neg hg]
      refine ih (fun x hx => hsub x (by simp [hx])) ?_
      rcases List.mem_cons.mp hmem with heq | hrest
      · exfalso
        have hf : f = g := (Prod.mk.injEq .. ▸ heq).1
        rw [hf] at hpres
        exact hg hpres
      · exact hrest

/-- C7 amended.  The detected package manager is deterministic only when
at most one manifest from the table exists: for every map-iteration order
(any permutation of the `packageFiles` entries), if exactly one manifest
file is present then its manager is reported.  With several manifests
present the result depends on the unspecified map iteration order, so the
claimed fixed npm-go-pip-… priority does not hold (see counterexample). -/
theorem package_manager_deterministic_when_unique (order : List (String × String))
    (present : String → Bool) (f mgr : String)
    (hperm : List.Perm order packageFiles)
    (hmem : (f, mgr) ∈ packageFiles) (hpres : present f = true)
    (huniq : ∀ e ∈ packageFiles, present e.1 = true → e = (f, mgr)) :
    scanDependenciesManager order present = mgr :=
  scanDependenciesManager_unique_aux order present f mgr
    (fun e he => hperm.mem_iff.mp he) (hperm.mem_iff.mpr hmem) hpres huniq

/-- Witness for C7: with only `go.mod` present, every iteration order —
here one that differs from the source text order — reports "go". -/
theorem package_manager_deterministic_when_unique_witness :
    List.Perm
      [("go.mod", "go"), ("package.json", "npm"), ("requirements.txt", "pip"),
       ("Gemfile", "bundler"), ("pom.xml", "maven"), ("build.gradle", "gradle"),
       ("Cargo.toml", "cargo")] packageFiles ∧
    scanDependenciesManager
      [("go.mod", "go"), ("package.json", "npm"), ("requirements.txt", "pip"),
       ("Gemfile", "bundler"), ("pom.xml", "maven"), ("build.gradle", "gradle"),
       ("Cargo.toml", "cargo")] (fun f => f == "go.mod") = "go" :=
  ⟨by decide,
   package_manager_deterministic_when_unique
     [("go.mod", "go"), ("package.json", "npm"), ("requirements.txt", "pip"),
      ("Gemfile", "bundler"), ("pom.xml", "maven"), ("build.gradle", "gradle"),
      ("Cargo.toml", "cargo")]
     (fun f => f == "go.mod") "go.mod" "go" (by decide) (by decide) (by decide)
     (by decide)⟩

/-! ## Form submission with empty fields (C10) -/

/-- C10.  In the `FormView`, submitting (pressing enter on the last field)
when the trimmed name or the trimmed path is empty is a no-op on the
project store and on the view state: no project is added, the form stays
open, and the entered field values are preserved — the model and store are
returned unchanged. -/
theorem form_submit_empty_is_noop (env : Env) (m : FormModel) (st : ConfigStore)
    (hfoc : m.formFocused = 2)
    (hempty : trimSpace m.input0 = "" ∨ trimSpace m.input1 = "") :
    handleFormEnter env m st = (m, st) := by
  unfold handleFormEnter
  rw [if_pos hfoc, if_neg (by rcases hempty with h | h <;> simp [h])]

/-- Witness for C10: a whitespace-only name on the last field leaves the
form open with its values and the store untouched. -/
theorem form_submit_empty_is_noop_witness :
    (FormModel.mk true 2 "  " "/p" "c" "asc" [⟨"x", "/x", "c"⟩]).formFocused = 2 ∧
    (trimSpace (FormModel.mk true 2 "  " "/p" "c" "asc" [⟨"x", "/x", "c"⟩]).input0 = "" ∨
     trimSpace (FormModel.mk true 2 "  " "/p" "c" "asc" [⟨"x", "/x", "c"⟩]).input1 = "") ∧
    handleFormEnter ⟨"/h", "/w"⟩ (FormModel.mk true 2 "  " "/p" "c" "asc" [⟨"x", "/x", "c"⟩])
        (SaveConfig ⟨[]⟩)
      = (FormModel.mk true 2 "  " "/p" "c" "asc" [⟨"x", "/x", "c"⟩], SaveConfig ⟨[]⟩) :=
  ⟨rfl, Or.inl (by decide),
   form_submit_empty_is_noop ⟨"/h", "/w"⟩ _ _ rfl (Or.inl (by decide))⟩

/-! ## Path-component lemmas for the scanner (C8) -/

/-- Splitting distributes over a slash boundary. -/
theorem partsAux_append_slash (a : List Char) :
    ∀ (cur b : List Char), partsAux cur (a ++ '/' :: b) = partsAux cur a ++ partsAux [] b := by
  induction a with
  | nil =>
    intro cur b
    by_cases hc : cur = []
    · simp [partsAux, hc]
    · simp [partsAux, hc]
  | cons x a' ih =>
    intro cur b
    by_cases hx : x = '/'
    · by_cases hc : cur = []
      · simp [partsAux, hx, hc, ih]
      · simp [partsAux, hx, hc, ih]
    · simp [partsAux, hx, ih]

/-- Splitting distributes over a slash boundary (`parts` form). -/
theorem parts_append_slash (a b : List Char) :
    parts (a ++ '/' :: b) = parts a ++ parts b :=
  partsAux_append_slash a [] b

/-- A non-empty slash-free list is a single component. -/
theorem partsAux_no_slash (n : List Char) :
    ∀ cur : List Char, '/' ∉ n →
      partsAux cur n = if cur.reverse ++ n = [] then [] else [cur.reverse ++ n] := by
  induction n with
  | nil =>
    intro cur _
    by_cases hc : cur = []
    · simp [partsAux, hc]
    · simp [partsAux, hc]
  | cons c rest ih =>
    intro cur hno
    have hc : c ≠ '/' := fun h => hno (h ▸ List.mem_cons_self c rest)
    have hrest : '/' ∉ rest := fun h => hno (List.mem_cons_of_mem c h)
    rw [partsAux, if_neg hc, ih (c :: cur) hrest]
    simp

/-- `parts` of a non-empty slash-free list. -/
theorem parts_single (n : List Char) (hne : n ≠ []) (hno : '/' ∉ n) :
    parts n = [n] := by
  rw [parts, partsAux_no_slash n [] hno]
  simp [hne]

/-- A leading slash does not affect the components. -/
theorem parts_slash_cons (x : List Char) : parts ('/' :: x) = parts x := by
  simp [parts, partsAux]

/-- Components produced by `parts` are non-empty and slash-free. -/
theorem partsAux_wf (l : List Char) :
    ∀ cur : List Char, '/' ∉ cur →
      ∀ c ∈ partsAux cur l, c ≠ [] ∧ '/' ∉ c := by
  induction l with
  | nil =>
    intro cur hcur c hc
    by_cases h : cur = []
    · simp [partsAux, h] at hc
    · rw [partsAux, if_neg h] at hc
      simp only [List.mem_singleton] at hc
      subst hc
      refine ⟨by simpa using h, ?_⟩
      simpa using hcur
  | cons x rest ih =>
    intro cur hcur c hc
    by_cases hx : x = '/'
    · subst hx
      by_cases h : cur = []
      · rw [partsAux, if_pos rfl, if_pos h] at hc
        exact ih [] (by simp) c hc
      · rw [partsAux, if_pos rfl, if_neg h] at hc
        rcases List.mem_cons.mp hc with rfl | hmem
        · refine ⟨by simpa using h, by simpa using hcur⟩
        · exact ih [] (by simp) c hmem
    · rw [partsAux, if_neg hx] at hc
      refine ih (x :: cur) ?_ c hc
      intro hmem
      rcases List.mem_cons.mp hmem with heq | hmem2
      · exact hx heq.symm
      · exact hcur hmem2

/-- The components of any path are non-empty and slash-free. -/
theorem parts_wf (l : List Char) : ∀ c ∈ parts l, c ≠ [] ∧ '/' ∉ c :=
  partsAux_wf l [] (by simp)

/-- `parts` inverts `joinParts` on well-formed components. -/
theorem parts_joinParts (cs : List (List Char))
    (h : ∀ c ∈ cs, c ≠ [] ∧ '/' ∉ c) : parts (joinParts cs) = cs := by
  induction cs with
  | nil => simp [joinParts, parts, partsAux]
  | cons c cs' ih =>
    rcases cs' with _ | ⟨d, ds⟩
    · rw [joinParts]
      exact parts_single c (h c (by simp)).1 (h c (by simp)).2
    · rw [joinParts, parts_append_slash,
        parts_single c (h c (by simp)).1 (h c (by simp)).2,
        ih (fun x hx => h x (List.mem_cons_of_mem c hx))]
      · simp
      · simp

/-- `cleanAux` passes through components that are not `.` or `..`. -/
theorem cleanAux_no_dots (rooted : Bool) (l : List (List Char)) :
    ∀ stk : List (List Char),
      (∀ c ∈ l, c ≠ ['.'] ∧ c ≠ ['.', '.']) →
      cleanAux rooted stk l = stk.reverse ++ l := by
  induction l with
  | nil =>
    intro stk _
    simp [cleanAux]
  | cons c rest ih =>
    intro stk hl
    have hc := hl c (by simp)
    rw [cleanAux.eq_def]
    simp only
    rw [if_neg hc.1, if_neg hc.2,
      ih (c :: stk) (fun x hx => hl x (List.mem_cons_of_mem c hx))]
    simp

/-- `cleanL` of a rooted path with normal components renders them back. -/
theorem cleanL_rooted_normal (l : List Char) (hhead : l.head? = some '/')
    (hps : ∀ c ∈ parts l, c ≠ ['.'] ∧ c ≠ ['.', '.']) (hne : parts l ≠ []) :
    cleanL l = '/' :: joinParts (parts l) := by
  simp only [cleanL, hhead, beq_self_eq_true]
  rw [cleanAux_no_dots true (parts l) [] hps]
  simp only [List.reverse_nil, List.nil_append]
  rcases hp : parts l with _ | ⟨c, cs⟩
  · exact absurd hp hne
  · simp

/-- A root path suitable for scanning: absolute, with no `.` or `..`
components (as produced by `filepath.Abs`). -/
def NormalAbsRoot (root : String) : Prop :=
  root.data.head? = some '/' ∧ ∀ c ∈ parts root.data, c ≠ ['.'] ∧ c ≠ ['.', '.']

/-- The data of a two-element `goJoin` with both sides non-empty. -/
theorem goJoin_data (root name : String) (h1 : root.data ≠ []) (h2 : name.data ≠ []) :
    (goJoin root name).data = cleanL (root.data ++ '/' :: name.data) := by
  rw [goJoin, if_neg h1, if_neg h2]

/-- `filepath.Base` of a `goJoin` onto a normal absolute root is the
joined name, when the name is a single normal component. -/
theorem goBase_goJoin (root name : String) (hroot : NormalAbsRoot root)
    (hn1 : name.data ≠ []) (hn2 : '/' ∉ name.data)
    (hn3 : name.data ≠ ['.']) (hn4 : name.data ≠ ['.', '.']) :
    goBase (goJoin root name) = name := by
  obtain ⟨hhead, hdots⟩ := hroot
  have hr1 : root.data ≠ [] := by
    intro h
    rw [h] at hhead
    simp at hhead
  have hpartsj : parts (root.data ++ '/' :: name.data) = parts root.data ++ [name.data] := by
    rw [parts_append_slash, parts_single name.data hn1 hn2]
  have hheadj : (root.data ++ '/' :: name.data).head? = some '/' := by
    rcases hd : root.data with _ | ⟨c, cs⟩
    · exact absurd hd hr1
    · rw [hd] at hhead
      simp only [List.head?_cons, Option.some.injEq] at hhead
      simp [hd, hhead]
  have hdotsj : ∀ c ∈ parts (root.data ++ '/' :: name.data), c ≠ ['.'] ∧ c ≠ ['.', '.'] := by
    rw [hpartsj]
    intro c hc
    rcases List.mem_append.mp hc with hmem | hmem
    · exact hdots c hmem
    · simp only [List.mem_singleton] at hmem
      subst hmem
      exact ⟨hn3, hn4⟩
  have hnej : parts (root.data ++ '/' :: name.data) ≠ [] := by
    rw [hpartsj]
    simp
  have hdata : (goJoin root name).data
      = '/' :: joinParts (parts root.data ++ [name.data]) := by
    rw [goJoin_data root name hr1 hn1,
      cleanL_rooted_normal _ hheadj hdotsj hnej, hpartsj]
  have hwf : ∀ c ∈ parts root.data ++ [name.data], c ≠ [] ∧ '/' ∉ c := by
    intro c hc
    rcases List.mem_append.mp hc with hmem | hmem
    · exact parts_wf root.data c hmem
    · simp only [List.mem_singleton] at hmem
      subst hmem
      exact ⟨hn1, hn2⟩
  have hpartsb : parts (goJoin root name).data = parts root.data ++ [name.data] := by
    rw [hdata, parts_slash_cons, parts_joinParts _ hwf]
  rw [goBase, if_neg (by rw [hdata]; simp), hpartsb, List.getLast?_concat]

/-! ## Facts derived from case-insensitive name matches -/

theorem equalFoldL_length (a : List Char) :
    ∀ b : List Char, equalFoldL a b = true → a.length = b.length := by
  induction a with
  | nil =>
    intro b h
    cases b with
    | nil => rfl
    | cons x xs => simp [equalFoldL] at h
  | cons x xs ih =>
    intro b h
    cases b with
    | nil => simp [equalFoldL] at h
    | cons y ys =>
      rw [equalFoldL, Bool.and_eq_true] at h
      simp [ih ys h.2]

theorem equalFoldL_mem_lower (a : List Char) :
    ∀ b : List Char, equalFoldL a b = true →
      ∀ c ∈ a, Char.toLower c ∈ b.map Char.toLower := by
  induction a with
  | nil => intro b _ c hc; simp at hc
  | cons x xs ih =>
    intro b h c hc
    cases b with
    | nil => simp [equalFoldL] at h
    | cons y ys =>
      rw [equalFoldL, Bool.and_eq_true, beq_iff_eq] at h
      rcases List.mem_cons.mp hc with rfl | hmem
      · rw [List.map_cons]
        exact h.1 ▸ List.mem_cons_self _ _
      · exact List.mem_cons_of_mem _ (ih ys h.2 c hmem)

/-- A name case-insensitively equal to `".git"` is a normal component. -/
theorem valid_comp_of_equalFold_git (g : String) (h : equalFold g ".git" = true) :
    g.data ≠ [] ∧ '/' ∉ g.data ∧ g.data ≠ ['.'] ∧ g.data ≠ ['.', '.'] := by
  have hlen : g.data.length = 4 := by
    have := equalFoldL_length g.data ".git".data h
    rw [this]
    decide
  refine ⟨?_, ?_, ?_, ?_⟩
  · intro hnil
    rw [hnil] at hlen
    simp at hlen
  · intro hmem
    have := equalFoldL_mem_lower g.data ".git".data h '/' hmem
    revert this
    decide
  · intro h1
    rw [h1] at hlen
    simp at hlen
  · intro h1
    rw [h1] at hlen
    simp at hlen

/-- A name case-insensitively equal to `"node_modules"` is a normal
component. -/
theorem valid_comp_of_equalFold_node_modules (n : String)
    (h : equalFold n "node_modules" = true) :
    n.data ≠ [] ∧ '/' ∉ n.data ∧ n.data ≠ ['.'] ∧ n.data ≠ ['.', '.'] := by
  have hlen : n.data.length = 12 := by
    have := equalFoldL_length n.data "node_modules".data h
    rw [this]
    decide
  refine ⟨?_, ?_, ?_, ?_⟩
  · intro hnil
    rw [hnil] at hlen
    simp at hlen
  · intro hmem
    have := equalFoldL_mem_lower n.data "node_modules".data h '/' hmem
    revert this
    decide
  · intro h1
    rw [h1] at hlen
    simp at hlen
  · intro h1
    rw [h1] at hlen
    simp at hlen

/-- A path whose base name case-insensitively matches an entry of the
exclusion table is excluded. -/
theorem shouldExclude_of_excluded_base (path d : String)
    (hd : d ∈ excludeDirs) (hg : equalFold (goBase path) d = true) :
    ShouldExclude path = true := by
  have hany : excludeDirs.any (fun dir => equalFold (goBase path) dir) = true :=
    List.any_eq_true.mpr ⟨d, hd, hg⟩
  simp only [ShouldExclude, hany]
  simp

/-! ## The C8 scan-exclusion theorem -/

/-- The contribution of a single directory entry to the scan result. -/
def scanEntryContribution (rootPath : String) (maxDepth currentDepth : Int)
    (pfx : String) (e : String × FSNode) : List FileEntry :=
  if ShouldExclude (goJoin rootPath e.1) then []
  else
    match e.2 with
    | .file sz => [⟨pfx ++ e.1, false, sz, strLower (goExt e.1)⟩]
    | .dir sz ents =>
      ⟨pfx ++ e.1, true, sz, ""⟩ ::
        ScanDirectory (goJoin rootPath e.1) maxDepth (currentDepth + 1)
          (pfx ++ e.1 ++ "/") (.dir sz ents)

/-- `scanEntries` is the concatenation of the entries' contributions. -/
theorem scanEntries_eq_flatMap (rootPath : String) (maxDepth currentDepth : Int)
    (pfx : String) (l : List (String × FSNode)) :
    scanEntries rootPath maxDepth currentDepth pfx l
      = l.flatMap (scanEntryContribution rootPath maxDepth currentDepth pfx) := by
  induction l with
  | nil =>
    rw [scanEntries.eq_def]
    rfl
  | cons e rest ih =>
    obtain ⟨name, sub⟩ := e
    rw [scanEntries.eq_def]
    simp only
    cases hex : ShouldExclude (goJoin rootPath name) with
    | true => simp [scanEntryContribution, hex, ih]
    | false =>
      cases sub with
      | file sz => simp [scanEntryContribution, hex, ih]
      | dir sz ents => simp [scanEntryContribution, hex, ih]

/-- C8.  For every directory whose immediate entries are a `.git` folder,
a `node_modules` folder and a regular (non-excluded) file — the folder
names matched case-insensitively — `ScanDirectory` returns exactly the
regular file's entry and nothing from or for the two excluded folders.
The root is any normal absolute path (as produced by `filepath.Abs`) and
the call must be within the depth bound. -/
theorem scan_excludes_git_and_node_modules (root : String)
    (maxDepth currentDepth : Int) (pfx : String)
    (entries : List (String × FSNode)) (g n f : String)
    (dsz gsz nsz fsz : Int) (gents nents : List (String × FSNode))
    (hroot : NormalAbsRoot root)
    (hdepth : ¬(maxDepth > 0 ∧ currentDepth > maxDepth))
    (hg : equalFold g ".git" = true)
    (hn : equalFold n "node_modules" = true)
    (hf : ShouldExclude (goJoin root f) = false)
    (hperm : List.Perm entries [(g, .dir gsz gents), (n, .dir nsz nents), (f, .file fsz)]) :
    ScanDirectory root maxDepth currentDepth pfx (.dir dsz entries)
      = [⟨pfx ++ f, false, fsz, strLower (goExt f)⟩] := by
  have hgv := valid_comp_of_equalFold_git g hg
  have hnv := valid_comp_of_equalFold_node_modules n hn
  have hgex : ShouldExclude (goJoin root g) = true := by
    apply shouldExclude_of_excluded_base _ ".git" (by decide)
    rw [goBase_goJoin root g hroot hgv.1 hgv.2.1 hgv.2.2.1 hgv.2.2.2]
    exact hg
  have hnex : ShouldExclude (goJoin root n) = true := by
    apply shouldExclude_of_excluded_base _ "node_modules" (by decide)
    rw [goBase_goJoin root n hroot hnv.1 hnv.2.1 hnv.2.2.1 hnv.2.2.2]
    exact hn
  rw [ScanDirectory.eq_def, if_neg hdepth]
  simp only
  rw [scanEntries_eq_flatMap]
  have hflat := hperm.flatMap_right
    (scanEntryContribution root maxDepth currentDepth pfx)
  have hthree : ([(g, FSNode.dir gsz gents), (n, FSNode.dir nsz nents),
      (f, FSNode.file fsz)] : List (String × FSNode)).flatMap
        (scanEntryContribution root maxDepth currentDepth pfx)
      = [⟨pfx ++ f, false, fsz, strLower (goExt f)⟩] := by
    simp [List.flatMap_cons, scanEntryContribution, hgex, hnex, hf]
  rw [hthree] at hflat
  exact List.perm_singleton.mp hflat

/-- Witness for C8: a concrete project directory with `.GIT`,
`NODE_MODULES` (case-variant names) and `main.go`. -/
theorem scan_excludes_git_and_node_modules_witness :
    NormalAbsRoot "/home/u/proj" ∧
    ¬((3 : Int) > 0 ∧ (0 : Int) > 3) ∧
    equalFold ".GIT" ".git" = true ∧
    equalFold "NODE_MODULES" "node_modules" = true ∧
    ShouldExclude (goJoin "/home/u/proj" "main.go") = false ∧
    ScanDirectory "/home/u/proj" 3 0 ""
      (.dir 0 [(".GIT", .dir 4 [("x", .file 1)]), ("NODE_MODULES", .dir 4 []),
               ("main.go", .file 10)])
      = [⟨"" ++ "main.go", false, 10, strLower (goExt "main.go")⟩] :=
  ⟨⟨by decide, by decide⟩, by decide, by decide, by decide, by decide,
   scan_excludes_git_and_node_modules "/home/u/proj" 3 0 ""
     [(".GIT", .dir 4 [("x", .file 1)]), ("NODE_MODULES", .dir 4 []), ("main.go", .file 10)]
     ".GIT" "NODE_MODULES" "main.go" 0 4 4 10 [("x", .file 1)] []
     ⟨by decide, by decide⟩ (by decide) (by decide) (by decide) (by decide)
     (List.Perm.refl _)⟩

end MPM
